import Mathlib

/-!
Verification of the `llmpr` CLI (source: `src/index.ts`).

The development shallowly embeds the algorithmic core of the repository:

* the context-request marker scanner (`content.matchAll(/\[NEED_CONTEXT:([^\]]+)\]/g)`
  and `content.replace(/\[NEED_CONTEXT:[^\]]+\]/g, '')` in `sendPromptToOpenAI`),
* the response normalizer (marker stripping followed by removal of an
  enclosing markdown code fence),
* the bounded multi-round completion loop of `sendPromptToOpenAI`,
* `readFileContent` and the per-round context resolution,
* `getDirectoryStructure` / `formatTree`, the directory tree summarizer.

Strings are JavaScript strings; they are embedded as `String` / `List Char`.
The remote completion endpoint is abstracted as an oracle `Nat → String`
giving the text content of the answer to the n-th request (0-based); the
filesystem is abstracted as a function from the requested path to a
`FileResult`.  All definitions are executable.
-/

namespace Llmpr

/-! ### The marker scanner

JavaScript regex semantics for `/\[NEED_CONTEXT:([^\]]+)\]/g`: the engine
scans left to right; at each position it tries to match the literal text
`[NEED_CONTEXT:`, then a maximal nonempty run of characters other than `]`
(greedy `[^\]]+`; a shorter backtracked run would be followed by a
non-`]` character, so the maximal run is the only candidate), then a
literal `]`.  On failure it advances one character; on success it captures
the run and resumes after the closing `]` (non-overlapping matches). -/

/-- The literal characters of `[NEED_CONTEXT:`. -/
def markerHeadL : List Char :=
  ['[', 'N', 'E', 'E', 'D', '_', 'C', 'O', 'N', 'T', 'E', 'X', 'T', ':']

/-- Attempt to match `\[NEED_CONTEXT:([^\]]+)\]` at the head of `l`.
Returns the capture (the path text) and the remainder after the closing
bracket.  `rem`, the part of the input after the capture, begins with `]`
whenever it is nonempty (its head fails the `dropWhile` predicate), so the
closing-bracket test of the regex is exactly `rem ≠ []`. -/
def matchMarker (l : List Char) : Option (List Char × List Char) :=
  if l.take 14 = markerHeadL then
    let rest := l.drop 14
    let cap := rest.takeWhile (fun c => c ≠ ']')
    let rem := rest.dropWhile (fun c => c ≠ ']')
    if cap = [] then none
    else if rem = [] then none
    else some (cap, rem.tail)
  else none

/-- One pass of `matchAll`, fuel-indexed (the fuel only drives structural
recursion; with fuel at least the length of the input the result is the
full left-to-right scan). -/
def extractGoF : Nat → List Char → List (List Char)
  | 0, _ => []
  | _ + 1, [] => []
  | fuel + 1, c :: cs =>
    match matchMarker (c :: cs) with
    | some (cap, after) => cap :: extractGoF fuel after
    | none => extractGoF fuel cs

/-- One pass of `replace(/\[NEED_CONTEXT:[^\]]+\]/g, '')`, fuel-indexed. -/
def stripGoF : Nat → List Char → List Char
  | 0, l => l
  | _ + 1, [] => []
  | fuel + 1, c :: cs =>
    match matchMarker (c :: cs) with
    | some (_, after) => stripGoF fuel after
    | none => c :: stripGoF fuel cs

/-- All captures of `content.matchAll(/\[NEED_CONTEXT:([^\]]+)\]/g)`,
at the character-list level. -/
def extractMarkersL (l : List Char) : List (List Char) :=
  extractGoF l.length l

/-- `content.replace(/\[NEED_CONTEXT:[^\]]+\]/g, '')`, at the
character-list level. -/
def stripMarkersL (l : List Char) : List Char :=
  stripGoF l.length l

/-! ### Trimming

`String.prototype.trim()` removes leading and trailing whitespace.  The
whitespace class is modelled by its ASCII part (space, tab, line feed,
carriage return, vertical tab, form feed); the code never builds strings
with the exotic Unicode space characters. -/

/-- ASCII fragment of the JavaScript whitespace class used by `trim()`. -/
def isJsWs (c : Char) : Bool :=
  c = ' ' || c = '\t' || c = '\n' || c = '\r' || c = '\x0b' || c = '\x0c'

/-- `String.prototype.trim()` at the character-list level. -/
def trimL (l : List Char) : List Char :=
  ((l.dropWhile isJsWs).reverse.dropWhile isJsWs).reverse

/-- `content.trim()`. -/
def trimS (s : String) : String :=
  String.mk (trimL s.data)

/-! ### The response normalizer

After the completion loop exits, `sendPromptToOpenAI` post-processes the
final answer:

        content = content.replace(/\[NEED_CONTEXT:[^\]]+\]/g, '')
        if (content.startsWith('```') && content.includes('\n')) {
          const lines = content.split('\n')
          if (lines[0].startsWith('```') && lines[lines.length - 1] === '```') {
            content = lines.slice(1, lines.length - 1).join('\n')
          } else if (lines[0].startsWith('```')) {
            const endIndex = lines.findIndex((line, i) => i > 0 && line === '```')
            if (endIndex !== -1) {
              content = lines.slice(1, endIndex).join('\n')
            }
          }
        }

`split('\n')` keeps empty segments, so it is modelled by `splitNl`;
`join('\n')` is `joinNl`. -/

/-- `content.split('\n')`. -/
def splitNl : List Char → List (List Char)
  | [] => [[]]
  | c :: cs =>
    if c = '\n' then [] :: splitNl cs
    else
      match splitNl cs with
      | [] => [[c]]
      | h :: t => (c :: h) :: t

/-- `lines.join('\n')`. -/
def joinNl : List (List Char) → List Char
  | [] => []
  | p :: ps => p ++ (if ps = [] then [] else '\n' :: joinNl ps)

/-- The literal characters of a closing fence line. -/
def fenceLineL : List Char := ['`', '`', '`']

/-- `line.startsWith('```')`. -/
def startsWithTicks (l : List Char) : Bool :=
  l.take 3 = fenceLineL

/-- Removal of an enclosing fenced code block, exactly as in the source:
only applied when the whole text starts with a fence marker and spans
several lines; either the last line is exactly a closing fence (both
delimiter lines are removed), or the first later line that is exactly a
closing fence terminates the block (everything after it is discarded);
otherwise the text is unchanged.  `lines[0]` is `(splitNl l).headD []`
and `lines.slice(1)` is `(splitNl l).drop 1` (`splitNl` never returns
`[]`). -/
def fenceStrip (l : List Char) : List Char :=
  if startsWithTicks l ∧ '\n' ∈ l then
    if startsWithTicks ((splitNl l).headD []) ∧
        ((splitNl l).drop 1).getLastD ((splitNl l).headD []) = fenceLineL then
      joinNl ((splitNl l).drop 1).dropLast
    else if startsWithTicks ((splitNl l).headD []) then
      (((splitNl l).drop 1).findIdx? (fun x => x = fenceLineL)).elim l
        (fun j => joinNl (((splitNl l).drop 1).take j))
    else l
  else l

/-- The exact condition under which the fence-removal step modifies its
input: the text starts with a fence marker, has a second line, and some
later line is exactly a closing fence. -/
def hasEnclosingFence (l : List Char) : Bool :=
  startsWithTicks l && l.contains '\n' && ((splitNl l).drop 1).any (fun x => x = fenceLineL)

/-- The full response normalizer: strip leftover context markers, then
remove an enclosing fence. -/
def normalizeL (l : List Char) : List Char :=
  fenceStrip (stripMarkersL l)

/-- String-level scanner captures:
`[...content.matchAll(/\[NEED_CONTEXT:([^\]]+)\]/g)].map(m => m[1])`. -/
def extractMarkers (s : String) : List String :=
  (extractMarkersL s.data).map String.mk

/-- String-level `content.replace(/\[NEED_CONTEXT:[^\]]+\]/g, '')`. -/
def stripMarkers (s : String) : String :=
  String.mk (stripMarkersL s.data)

/-- String-level response normalizer. -/
def normalizeResp (s : String) : String :=
  String.mk (normalizeL s.data)

/-- The condition under which the defensive marker strip is guaranteed to
leave no marker behind: every `[` encountered by the left-to-right scan
opens a complete marker.  (Fuel-indexed like the scanners.) -/
def bracketsOkF : Nat → List Char → Bool
  | 0, l => l.isEmpty
  | _ + 1, [] => true
  | fuel + 1, c :: cs =>
    if c = '[' then
      match matchMarker (c :: cs) with
      | some (_, after) => bracketsOkF fuel after
      | none => false
    else bracketsOkF fuel cs

/-- String-level well-bracketing of context markers. -/
def bracketsOk (s : String) : Bool :=
  bracketsOkF s.data.length s.data

/-! ### The context-aware completion loop

`sendPromptToOpenAI` sends the initial prompt (request 0), then runs

        const maxRounds = 3
        let currentRound = 1
        while (currentRound < maxRounds) {
          const contextRequests = [...content.matchAll(/\[NEED_CONTEXT:([^\]]+)\]/g)]
          if (contextRequests.length === 0) break
          const additionalContext = await Promise.all(contextRequests.map(...))
          const followUpPrompt = ...
          response = await callOpenAI(apiKey, followUpPrompt, ...)
          content = response.data.choices[0].message.content.trim()
          currentRound++
        }

and finally normalizes `content`.  The endpoint is abstracted by
`oracle : Nat → String`, giving the text content of the answer to the
k-th completion request (0-based); the transport layer and the message
role bookkeeping of `callOpenAI` carry no information relevant to the
claims.  The filesystem behind `readFileContent` is abstracted by `FS`,
keyed directly by the requested path (the `path.isAbsolute`/`cwd` join
selects which real file backs a key). -/

/-- Outcome of the filesystem for one requested path: `statSync` finds no
entry, `readFileSync` throws, or the file's text is returned. -/
inductive FileResult where
  | missing : FileResult
  | unreadable (msg : String) : FileResult
  | content (text : String) : FileResult

/-- Abstract read-only filesystem keyed by the requested path. -/
def FS : Type := String → FileResult

/-- `readFileContent`: when `statSync(fullPath, { throwIfNoEntry: false })`
finds no entry the function throws `File not found: ${filepath}`;
otherwise `readFileSync` either throws its own error or returns the
text. -/
def readFileContent (fs : FS) (filepath : String) : Except String String :=
  match fs filepath with
  | FileResult.missing => Except.error ("File not found: " ++ filepath)
  | FileResult.unreadable m => Except.error m
  | FileResult.content t => Except.ok t

/-- Resolution of one matched context request: the captured path is
trimmed (`const filepath = match[1].trim()`), then read; a success is
embedded as a fenced file block, a failure is caught and embedded as an
error line. -/
def resolveCapture (fs : FS) (cap : String) : String :=
  match readFileContent fs (trimS cap) with
  | Except.ok t => "File content for " ++ trimS cap ++ ":\n```\n" ++ t ++ "\n```"
  | Except.error m => "Error reading " ++ trimS cap ++ ": " ++ m

/-- The additional context blocks computed in one round from the latest
answer: every match is resolved, in order, duplicates included. -/
def roundContext (fs : FS) (answer : String) : List String :=
  (extractMarkers answer).map (resolveCapture fs)

/-- The follow-up prompt built from the resolved context blocks
(`additionalContext.join('\n\n')` spliced into the template). -/
def mkFollowUp (ctx : List String) : String :=
  "\nYou previously requested additional context to complete the PR description.\nHere is the requested context:\n\n"
    ++ String.intercalate "\n\n" ctx
    ++ "\n\nBased on this additional information, please generate the complete PR description as requested originally.\nDo NOT request more context with [NEED_CONTEXT:filepath]. This is your final opportunity to generate the PR description.\n"

/-- The fixed round budget. -/
def maxRounds : Nat := 3

/-- The `while (currentRound < maxRounds)` loop.  `fuel` is
`maxRounds - currentRound`, the number of remaining iterations, carried
as a separate structural argument (the loop test `currentRound < maxRounds`
is `0 < fuel`); `r` is `currentRound`; `content` the latest trimmed
answer; `fups` the follow-up prompts sent so far.  The answer to the
request sent while `currentRound = r` is `oracle r` (the initial request
is `oracle 0`).  Returns the final `currentRound`, the follow-up prompts
in order, and the final answer. -/
def loopGo (oracle : Nat → String) (fs : FS) :
    Nat → Nat → String → List String → Nat × List String × String
  | 0, r, content, fups => (r, fups, content)
  | fuel + 1, r, content, fups =>
    if extractMarkers content = [] then (r, fups, content)
    else
      loopGo oracle fs fuel (r + 1) (trimS (oracle r))
        (fups ++ [mkFollowUp (roundContext fs content)])

/-- Observable outcome of one run of `sendPromptToOpenAI`: the final
round counter, the follow-up prompts that were sent (one per completion
request after the first), the answer at loop exit, and the normalized
returned text. -/
structure RunResult where
  rounds : Nat
  followUps : List String
  raw : String
  final : String

/-- `sendPromptToOpenAI`: send the initial prompt as request 0, run the
bounded context loop starting at `currentRound = 1`, then strip leftover
markers and an enclosing fence from the final answer. -/
def sendPromptToOpenAI (oracle : Nat → String) (fs : FS) (initialPrompt : String) : RunResult :=
  let content := trimS (oracle 0)
  let res := loopGo oracle fs (maxRounds - 1) 1 content []
  { rounds := res.1
    followUps := res.2.1
    raw := res.2.2
    final := normalizeResp res.2.2 }

/-! ### The directory tree summarizer

`getDirectoryStructure(dir, changedFiles)` walks the real filesystem.
The filesystem is embedded as a finite tree of named entries; repository
relative paths (`path.relative(dir, itemPath)`, the changed-file paths
produced by `git diff --name-only`, and the results of `path.dirname`)
are embedded as lists of path segments: `"src/b/c.ts"` is
`["src", "b", "c.ts"]`, `path.dirname` is `List.dropLast`, `path.join`
appends one segment, and the root `'.'` is `[]`.  The chalk highlight of
changed files is an abstract string transformer `hl`. -/

/-- One filesystem entry: a file or a directory with its children (in
`readdirSync` order). -/
inductive Entry where
  | file (name : String) : Entry
  | dir (name : String) (children : List Entry) : Entry

/-- The entry's name. -/
def Entry.name : Entry → String
  | Entry.file n => n
  | Entry.dir n _ => n

/-- `statSync(itemPath).isDirectory()`. -/
def Entry.isDir : Entry → Bool
  | Entry.file _ => false
  | Entry.dir _ _ => true

/-- The `while (parentDir !== '.')` accumulation of `path.dirname`
iterates: all nonempty proper prefixes of the path, longest first.
`fuel` bounds the iteration structurally (`p.length` suffices). -/
def parentsGo : Nat → List String → List (List String)
  | 0, _ => []
  | fuel + 1, p => if p = [] then [] else p :: parentsGo fuel p.dropLast

/-- The parent directories recorded for one changed file: start from
`path.dirname(file)` and iterate `path.dirname` until `'.'`. -/
def parentsOf (f : List String) : List (List String) :=
  parentsGo f.length f.dropLast

/-- `changedDirs`: for every changed file, all its parent directories and
the root `'.'` (modelled as `[]`).  Only membership is ever used, so the
`Set` is modelled as a list. -/
def changedDirs (files : List (List String)) : List (List String) :=
  (files.map (fun f => parentsOf f ++ [[]])).flatten

/-- The ASCII punctuation and symbol characters in CLDR root collation
order (the default collation behind `localeCompare` in Node): space,
connector and dash punctuation, other punctuation and brackets, then
modifier and math symbols and the dollar sign — all of which sort
before digits and letters. -/
def asciiPunctOrder : List Char :=
  [' ', '_', '-', ',', ';', ':', '!', '?', '.', '\'', '"', '(', ')', '[', ']',
   '\x7b', '\x7d', '@', '*', '/', '\\', '&', '#', '%', '`', '^', '+', '<', '=',
   '>', '|', '~', '$']

/-- Primary collation weight of a character under the CLDR root
collation, restricted to ASCII: punctuation and symbols (in root order)
sort before digits, digits sort before letters, and letters compare
case-insensitively at this level.  Characters outside the modelled
ASCII repertoire fall back to code-point order after everything else.
`localeCompare` model, see `localeCompareM`. -/
def primKey (c : Char) : Nat :=
  if c.isDigit then 2000 + c.toNat
  else if c.isAlpha then 3000 + c.toLower.toNat
  else if c ∈ asciiPunctOrder then 1000 + asciiPunctOrder.findIdx (fun x => x = c)
  else 4000 + c.toNat

/-- Case (tertiary) collation weight: lowercase before uppercase. -/
def caseKey (c : Char) : Nat :=
  if c.isUpper then 1 else 0

/-- Lexicographic comparison of weight sequences. -/
def cmpNatList : List Nat → List Nat → Ordering
  | [], [] => Ordering.eq
  | [], _ :: _ => Ordering.lt
  | _ :: _, [] => Ordering.gt
  | a :: as, b :: bs =>
    if a < b then Ordering.lt
    else if b < a then Ordering.gt
    else cmpNatList as bs

/-- The comparator value corresponding to a comparison outcome. -/
def ordToCmp : Ordering → Int
  | Ordering.lt => -1
  | Ordering.gt => 1
  | Ordering.eq => 0

/-- Model of `a.localeCompare(b)` under Node's default collation (the
ICU/CLDR root collation), restricted to the ASCII strings the tool
manipulates: strings are compared by their primary weight sequences —
punctuation and symbols (in root order, see `asciiPunctOrder`) before
digits, digits before letters, letters folded to lower case — and equal
primary sequences are ordered by case, lowercase first.  This differs
from code-point comparison: `"a".localeCompare("Z") < 0` while
`'Z' < 'a'` as code points, and `"_".localeCompare("1") < 0` while
`'1' < '_'` as code points. -/
def localeCompareM (a b : String) : Int :=
  if cmpNatList (a.data.map primKey) (b.data.map primKey) = Ordering.eq
  then ordToCmp (cmpNatList (a.data.map caseKey) (b.data.map caseKey))
  else ordToCmp (cmpNatList (a.data.map primKey) (b.data.map primKey))

/-- The sort comparator of `formatTree`: directories first, then files,
ties broken by `a.localeCompare(b)` on the names. -/
def entryCmp (a b : Entry) : Int :=
  if a.isDir && !b.isDir then -1
  else if !a.isDir && b.isDir then 1
  else localeCompareM a.name b.name

/-- The ordering relation induced by the comparator, as used by a
comparison sort. -/
def entryLe (a b : Entry) : Prop :=
  entryCmp a b ≤ 0

instance : DecidableRel entryLe :=
  fun a b => inferInstanceAs (Decidable (entryCmp a b ≤ 0))

/-- The `.sort(...)` call (a stable comparison sort). -/
def sortEntries (l : List Entry) : List Entry :=
  List.insertionSort entryLe l

/-- `item.startsWith('.git')` (JavaScript `String.prototype.startsWith`),
at the character level. -/
def startsWithS (s pre : String) : Bool :=
  s.data.take pre.data.length = pre.data

/-- The `.filter(...)` predicate of `formatTree`: entries named like the
version-control metadata directory are always dropped; a directory is
kept when it contains a changed file (or at depth 0), a file when it is
itself changed (or at depth 0).  `rel` is the relative path of the
directory being listed. -/
def keepEntry (changed cdirs : List (List String)) (rel : List String) (depth : Nat)
    (e : Entry) : Bool :=
  if startsWithS e.name ".git" then false
  else if e.isDir then decide ((rel ++ [e.name]) ∈ cdirs) || decide (depth = 0)
  else decide ((rel ++ [e.name]) ∈ changed) || decide (depth = 0)

/-- The items listed for one directory: filtered, then sorted. -/
def levelItems (changed cdirs : List (List String)) (rel : List String) (depth : Nat)
    (children : List Entry) : List Entry :=
  sortEntries ((children.filter (keepEntry changed cdirs rel depth)))

/-- `forEach((item, index) => ...)`: pair every element with its index. -/
def enumFromN : Nat → List Entry → List (Nat × Entry)
  | _, [] => []
  | i, e :: es => (i, e) :: enumFromN (i + 1) es

/-- `formatTree(currentPath, prefix, depth, maxDepth)`.  `fuel` is an
upper bound on the remaining recursion depth, carried as a separate
structural argument; it never influences the result as long as it
exceeds `maxDepth - depth + 1` (the depth guard fires first), and the
fuel-exhausted branch returns the same placeholder as the depth guard.
`children` are the entries of the directory being listed, `rel` its
repository-relative path. -/
def formatTreeF (hl : String → String) (changed cdirs : List (List String)) :
    Nat → List Entry → List String → String → Nat → Nat → String
  | 0, _, _, pfx, _, _ => pfx ++ "... (more items not shown)\n"
  | fuel + 1, children, rel, pfx, depth, maxDepth =>
    if depth > maxDepth then pfx ++ "... (more items not shown)\n"
    else
      String.join ((enumFromN 0 (levelItems changed cdirs rel depth children)).map
        (fun ie =>
          let isLast := ie.1 = (levelItems changed cdirs rel depth children).length - 1
          let connector := if isLast then "└── " else "├── "
          match ie.2 with
          | Entry.file name =>
            let fname := if (rel ++ [name]) ∈ changed then hl name else name
            pfx ++ connector ++ fname ++ "\n"
          | Entry.dir name cs =>
            pfx ++ connector ++ (name ++ "/") ++ "\n" ++
              formatTreeF hl changed cdirs fuel cs (rel ++ [name])
                (pfx ++ (if isLast then "    " else "│   ")) (depth + 1) maxDepth))

/-- `getDirectoryStructure(dir, changedFiles)`: the root line followed by
the rendered tree (the initial call `formatTree(dir)` with prefix `""`, depth 0,
`maxDepth = 3`). -/
def getDirectoryStructure (hl : String → String) (rootName : String)
    (entries : List Entry) (changed : List (List String)) : String :=
  rootName ++ "/\n" ++ formatTreeF hl changed (changedDirs changed) 5 entries [] "" 0 3

/-- Truncation of an entry tree below `k` levels of directory nesting
(directory children below the cut are dropped; names and kinds are
kept). -/
def truncE : Nat → Entry → Entry
  | _, Entry.file n => Entry.file n
  | 0, Entry.dir n _ => Entry.dir n []
  | k + 1, Entry.dir n cs => Entry.dir n (cs.map (truncE k))


/-! ### Properties -/

theorem matchMarker_head {c : Char} {cs : List Char} {r : List Char × List Char}
    (h : matchMarker (c :: cs) = some r) : c = '[' := by
  rw [matchMarker] at h
  by_cases hh : (c :: cs).take 14 = markerHeadL
  · have ht : (c :: cs).take 14 = c :: cs.take 13 := rfl
    rw [ht] at hh
    simp only [markerHeadL] at hh
    injection hh with h1 _
  · rw [if_neg hh] at h
    exact Option.noConfusion h

theorem matchMarker_length {l : List Char} {cap after : List Char}
    (h : matchMarker l = some (cap, after)) : after.length + 15 ≤ l.length := by
  rw [matchMarker] at h
  by_cases hh : l.take 14 = markerHeadL
  · rw [if_pos hh] at h
    simp only [] at h
    by_cases hcap : (l.drop 14).takeWhile (fun c => c ≠ ']') = []
    · rw [if_pos hcap] at h; exact Option.noConfusion h
    · rw [if_neg hcap] at h
      by_cases hrem : (l.drop 14).dropWhile (fun c => c ≠ ']') = []
      · rw [if_pos hrem] at h; exact Option.noConfusion h
      · rw [if_neg hrem] at h
        have hafter : after = ((l.drop 14).dropWhile (fun c => c ≠ ']')).tail := by
          have := (Option.some.injEq _ _).mp h
          exact (congrArg Prod.snd this).symm
        have hsplit : ((l.drop 14).takeWhile (fun c => c ≠ ']')).length
            + ((l.drop 14).dropWhile (fun c => c ≠ ']')).length = (l.drop 14).length := by
          rw [← List.length_append, List.takeWhile_append_dropWhile]
        have hlen14 : 14 ≤ l.length := by
          have := congrArg List.length hh
          simp only [List.length_take, markerHeadL] at this
          simp at this
          omega
        have hdrop : (l.drop 14).length = l.length - 14 := by simp
        have htail : ((l.drop 14).dropWhile (fun c => c ≠ ']')).tail.length
            = ((l.drop 14).dropWhile (fun c => c ≠ ']')).length - 1 := List.length_tail _
        have hcappos : 1 ≤ ((l.drop 14).takeWhile (fun c => c ≠ ']')).length :=
          List.length_pos.mpr hcap
        have hrempos : 1 ≤ ((l.drop 14).dropWhile (fun c => c ≠ ']')).length :=
          List.length_pos.mpr hrem
        rw [hafter, htail]
        omega
  · rw [if_neg hh] at h
    exact Option.noConfusion h

theorem extractGoF_congr : ∀ (f g : Nat) (l : List Char),
    l.length ≤ f → l.length ≤ g → extractGoF f l = extractGoF g l := by
  intro f
  induction f with
  | zero =>
    intro g l hf _
    have : l = [] := List.length_eq_zero.mp (Nat.le_zero.mp hf)
    subst this
    cases g <;> rfl
  | succ f ih =>
    intro g l hf hg
    match l with
    | [] => cases g <;> rfl
    | c :: cs =>
      match g, hg with
      | g + 1, hg =>
        simp only [extractGoF]
        match hm : matchMarker (c :: cs) with
        | some (cap, after) =>
          have hlt := matchMarker_length hm
          simp only [List.length_cons] at hf hg hlt
          exact congrArg (cap :: ·) (ih g after (by omega) (by omega))
        | none =>
          simp only [List.length_cons] at hf hg
          exact ih g cs (by omega) (by omega)

theorem stripGoF_congr : ∀ (f g : Nat) (l : List Char),
    l.length ≤ f → l.length ≤ g → stripGoF f l = stripGoF g l := by
  intro f
  induction f with
  | zero =>
    intro g l hf _
    have : l = [] := List.length_eq_zero.mp (Nat.le_zero.mp hf)
    subst this
    cases g <;> rfl
  | succ f ih =>
    intro g l hf hg
    match l with
    | [] => cases g <;> rfl
    | c :: cs =>
      match g, hg with
      | g + 1, hg =>
        simp only [stripGoF]
        match hm : matchMarker (c :: cs) with
        | some (cap, after) =>
          have hlt := matchMarker_length hm
          simp only [List.length_cons] at hf hg hlt
          exact ih g after (by omega) (by omega)
        | none =>
          simp only [List.length_cons] at hf hg
          exact congrArg (c :: ·) (ih g cs (by omega) (by omega))

theorem extractMarkersL_nil : extractMarkersL [] = [] := rfl

theorem extractMarkersL_cons_some {c : Char} {cs cap after : List Char}
    (h : matchMarker (c :: cs) = some (cap, after)) :
    extractMarkersL (c :: cs) = cap :: extractMarkersL after := by
  have hlt := matchMarker_length h
  simp only [List.length_cons] at hlt
  simp only [extractMarkersL, List.length_cons, extractGoF, h]
  exact congrArg (cap :: ·) (extractGoF_congr cs.length after.length after (by omega) le_rfl)

theorem extractMarkersL_cons_none {c : Char} {cs : List Char}
    (h : matchMarker (c :: cs) = none) :
    extractMarkersL (c :: cs) = extractMarkersL cs := by
  simp only [extractMarkersL, List.length_cons, extractGoF, h]

theorem stripMarkersL_nil : stripMarkersL [] = [] := rfl

theorem stripMarkersL_cons_some {c : Char} {cs cap after : List Char}
    (h : matchMarker (c :: cs) = some (cap, after)) :
    stripMarkersL (c :: cs) = stripMarkersL after := by
  have hlt := matchMarker_length h
  simp only [List.length_cons] at hlt
  simp only [stripMarkersL, List.length_cons, stripGoF, h]
  exact stripGoF_congr cs.length after.length after (by omega) le_rfl

theorem stripMarkersL_cons_none {c : Char} {cs : List Char}
    (h : matchMarker (c :: cs) = none) :
    stripMarkersL (c :: cs) = c :: stripMarkersL cs := by
  simp only [stripMarkersL, List.length_cons, stripGoF, h]

/-- The scanner finds nothing in text without an opening bracket. -/
theorem extractMarkersL_of_no_bracket : ∀ {l : List Char}, '[' ∉ l → extractMarkersL l = [] := by
  intro l
  induction l with
  | nil => intro _; rfl
  | cons c cs ih =>
    intro h
    have hc : c ≠ '[' := fun he => h (he ▸ List.mem_cons_self c cs)
    have hnone : matchMarker (c :: cs) = none := by
      match hm : matchMarker (c :: cs) with
      | none => rfl
      | some r => exact absurd (matchMarker_head hm) hc
    rw [extractMarkersL_cons_none hnone]
    exact ih (fun hm => h (List.mem_cons_of_mem c hm))

/-- If the scan finds no marker, the strip is the identity. -/
theorem stripMarkersL_of_extract_nil : ∀ {l : List Char},
    extractMarkersL l = [] → stripMarkersL l = l := by
  intro l
  induction l with
  | nil => intro _; rfl
  | cons c cs ih =>
    intro h
    match hm : matchMarker (c :: cs) with
    | some (cap, after) => rw [extractMarkersL_cons_some hm] at h; exact absurd h (by simp)
    | none =>
      rw [extractMarkersL_cons_none hm] at h
      rw [stripMarkersL_cons_none hm, ih h]

theorem takeWhile_no_close {s : List Char} (r : List Char) (hb : ']' ∉ s) :
    (s ++ ']' :: r).takeWhile (fun c => c ≠ ']') = s := by
  induction s with
  | nil => rw [List.nil_append, List.takeWhile_cons, if_neg (by simp)]
  | cons a as ih =>
    have ha : a ≠ ']' := fun he => hb (he ▸ List.mem_cons_self a as)
    have has : ']' ∉ as := fun hm => hb (List.mem_cons_of_mem a hm)
    rw [List.cons_append, List.takeWhile_cons, if_pos (by simp [ha]), ih has]

theorem dropWhile_no_close {s : List Char} (r : List Char) (hb : ']' ∉ s) :
    (s ++ ']' :: r).dropWhile (fun c => c ≠ ']') = ']' :: r := by
  induction s with
  | nil => rw [List.nil_append, List.dropWhile_cons, if_neg (by simp)]
  | cons a as ih =>
    have ha : a ≠ ']' := fun he => hb (he ▸ List.mem_cons_self a as)
    have has : ']' ∉ as := fun hm => hb (List.mem_cons_of_mem a hm)
    rw [List.cons_append, List.dropWhile_cons, if_pos (by simp [ha]), ih has]

/-- A well-formed marker at the head of the input matches, capturing the
path text. -/
theorem matchMarker_exact {s : List Char} (r : List Char) (hs : s ≠ []) (hb : ']' ∉ s) :
    matchMarker (markerHeadL ++ (s ++ ']' :: r)) = some (s, r) := by
  have htake : (markerHeadL ++ (s ++ ']' :: r)).take 14 = markerHeadL := by
    have : (14 : Nat) = markerHeadL.length := rfl
    rw [this, List.take_left]
  have hdrop : (markerHeadL ++ (s ++ ']' :: r)).drop 14 = s ++ ']' :: r := by
    have : (14 : Nat) = markerHeadL.length := rfl
    rw [this, List.drop_left]
  rw [matchMarker, if_pos htake]
  simp only [hdrop, takeWhile_no_close r hb, dropWhile_no_close r hb]
  rw [if_neg hs]
  simp

/-- Scanning a string that consists of one well-formed marker followed by
arbitrary text yields the marker's capture followed by the scan of the
rest. -/
theorem extractMarkersL_marker {s : List Char} (r : List Char) (hs : s ≠ []) (hb : ']' ∉ s) :
    extractMarkersL (markerHeadL ++ (s ++ ']' :: r)) = s :: extractMarkersL r := by
  have hm : matchMarker (markerHeadL ++ (s ++ ']' :: r)) = some (s, r) :=
    matchMarker_exact r hs hb
  exact extractMarkersL_cons_some hm

theorem length_dropWhile_le (p : Char → Bool) (l : List Char) :
    (l.dropWhile p).length ≤ l.length :=
  (List.dropWhile_suffix p).length_le

theorem dropWhile_eq_self_of_length {p : Char → Bool} {l : List Char}
    (h : (l.dropWhile p).length = l.length) : l.dropWhile p = l := by
  cases l with
  | nil => rfl
  | cons a as =>
    cases hp : p a with
    | true =>
      exfalso
      rw [List.dropWhile_cons, if_pos hp] at h
      have hle := length_dropWhile_le p as
      simp only [List.length_cons] at h
      omega
    | false => rw [List.dropWhile_cons, if_neg (by simp [hp])]

theorem trimL_front {l : List Char} (h : trimL l = l) : l.dropWhile isJsWs = l := by
  have h1 : (l.dropWhile isJsWs).length ≤ l.length := length_dropWhile_le _ _
  have h2 : (trimL l).length ≤ (l.dropWhile isJsWs).length := by
    simp only [trimL, List.length_reverse]
    calc ((l.dropWhile isJsWs).reverse.dropWhile isJsWs).length
        ≤ (l.dropWhile isJsWs).reverse.length := length_dropWhile_le _ _
      _ = (l.dropWhile isJsWs).length := List.length_reverse _
  have := congrArg List.length h
  exact dropWhile_eq_self_of_length (by omega)

theorem trimL_back {l : List Char} (h : trimL l = l) :
    l.reverse.dropWhile isJsWs = l.reverse := by
  have hf := trimL_front h
  have : trimL l = (l.reverse.dropWhile isJsWs).reverse := by rw [trimL, hf]
  rw [h] at this
  have := congrArg List.reverse this
  simpa using this.symm

theorem head_not_ws_of_dropWhile {a : Char} {as : List Char}
    (h : (a :: as).dropWhile isJsWs = a :: as) : isJsWs a = false := by
  cases hw : isJsWs a with
  | false => rfl
  | true =>
    exfalso
    rw [List.dropWhile_cons, if_pos hw] at h
    have := congrArg List.length h
    have hle := length_dropWhile_le isJsWs as
    simp only [List.length_cons] at this
    omega

/-- Trimming a string obtained by padding an already-trimmed nonempty
string with a space on each side recovers the string. -/
theorem trimL_pad {p : List Char} (hp : p ≠ []) (ht : trimL p = p) :
    trimL (' ' :: (p ++ [' '])) = p := by
  match p, hp with
  | a :: as, _ =>
    have hfront := trimL_front ht
    have hback := trimL_back ht
    have ha : isJsWs a = false := head_not_ws_of_dropWhile hfront
    have hws : isJsWs ' ' = true := rfl
    have h1 : (' ' :: ((a :: as) ++ [' '])).dropWhile isJsWs = (a :: as) ++ [' '] := by
      rw [List.dropWhile_cons, if_pos hws, List.cons_append, List.dropWhile_cons, if_neg (by simp [ha])]
    have h2 : ((a :: as) ++ [' ']).reverse = ' ' :: (a :: as).reverse := by simp
    have h3 : (' ' :: (a :: as).reverse).dropWhile isJsWs = (a :: as).reverse := by
      rw [List.dropWhile_cons, if_pos hws, hback]
    rw [trimL, h1, h2, h3, List.reverse_reverse]

theorem splitNl_ne_nil : ∀ (l : List Char), splitNl l ≠ [] := by
  intro l
  cases l with
  | nil => simp [splitNl]
  | cons c cs =>
    rw [splitNl]
    by_cases hc : c = '\n'
    · rw [if_pos hc]; simp
    · rw [if_neg hc]
      match splitNl cs with
      | [] => simp
      | h :: t => simp

theorem splitNl_two_of_mem : ∀ {l : List Char}, '\n' ∈ l → 2 ≤ (splitNl l).length := by
  intro l
  induction l with
  | nil => intro h; exact absurd h (List.not_mem_nil _)
  | cons c cs ih =>
    intro h
    rw [splitNl]
    by_cases hc : c = '\n'
    · rw [if_pos hc]
      have := List.length_pos.mpr (splitNl_ne_nil cs)
      simp only [List.length_cons]
      omega
    · rw [if_neg hc]
      have hmem : '\n' ∈ cs := by
        cases List.mem_cons.mp h with
        | inl he => exact absurd he.symm hc
        | inr hm => exact hm
      have h2 := ih hmem
      match hs : splitNl cs with
      | [] => exact absurd hs (splitNl_ne_nil cs)
      | p :: ps =>
        rw [hs] at h2
        simp only [List.length_cons] at h2 ⊢
        omega

theorem splitNl_chars : ∀ {l : List Char} {p : List Char} {c : Char},
    p ∈ splitNl l → c ∈ p → c ∈ l := by
  intro l
  induction l with
  | nil =>
    intro p c hp hc
    simp only [splitNl, List.mem_singleton] at hp
    subst hp
    exact absurd hc (List.not_mem_nil _)
  | cons a as ih =>
    intro p c hp hc
    rw [splitNl] at hp
    by_cases ha : a = '\n'
    · rw [if_pos ha] at hp
      cases List.mem_cons.mp hp with
      | inl he => subst he; exact absurd hc (List.not_mem_nil _)
      | inr hm => exact List.mem_cons_of_mem a (ih hm hc)
    · rw [if_neg ha] at hp
      match hs : splitNl as with
      | [] => exact absurd hs (splitNl_ne_nil as)
      | h :: t =>
        rw [hs] at hp
        cases List.mem_cons.mp hp with
        | inl he =>
          subst he
          cases List.mem_cons.mp hc with
          | inl hce => exact hce ▸ List.mem_cons_self a as
          | inr hcm =>
            have : h ∈ splitNl as := hs ▸ List.mem_cons_self h t
            exact List.mem_cons_of_mem a (ih this hcm)
        | inr hm =>
          have : p ∈ splitNl as := hs ▸ List.mem_cons_of_mem h hm
          exact List.mem_cons_of_mem a (ih this hc)

theorem joinNl_chars : ∀ {ps : List (List Char)} {c : Char},
    c ∈ joinNl ps → c = '\n' ∨ ∃ p ∈ ps, c ∈ p := by
  intro ps
  induction ps with
  | nil => intro c h; exact absurd h (List.not_mem_nil _)
  | cons p ps ih =>
    intro c h
    rw [joinNl] at h
    rcases List.mem_append.mp h with hp | hrest
    · exact Or.inr ⟨p, List.mem_cons_self p _, hp⟩
    · by_cases hps : ps = []
      · rw [if_pos hps] at hrest
        exact absurd hrest (List.not_mem_nil _)
      · rw [if_neg hps] at hrest
        cases List.mem_cons.mp hrest with
        | inl he => exact Or.inl he
        | inr hm =>
          rcases ih hm with he | ⟨r, hr, hcr⟩
          · exact Or.inl he
          · exact Or.inr ⟨r, List.mem_cons_of_mem p hr, hcr⟩

/-- The last element (with default) of a nonempty list is a member. -/
theorem getLastD_cons_mem (d : List Char) :
    ∀ (rs : List (List Char)) (r : List Char), (r :: rs).getLastD d ∈ r :: rs := by
  intro rs
  induction rs with
  | nil => intro r; simp [List.getLastD]
  | cons b bs ih =>
    intro r
    have h1 : (r :: b :: bs).getLastD d = (b :: bs).getLastD r := by
      cases bs <;> simp [List.getLastD]
    rw [h1]
    exact List.mem_cons_of_mem r (by simpa using ih b)

/-- Characters of the fence-stripped text come from the input (or are the
newlines reinserted by `join('\n')`). -/
theorem fenceStrip_chars {c : Char} {l : List Char}
    (h : c ∈ fenceStrip l) : c = '\n' ∨ c ∈ l := by
  rw [fenceStrip] at h
  by_cases hguard : startsWithTicks l = true ∧ '\n' ∈ l
  · rw [if_pos hguard] at h
    rcases hs : splitNl l with _ | ⟨l0, rest⟩
    · exact absurd hs (splitNl_ne_nil l)
    · rw [hs] at h
      have hdrop : (l0 :: rest).drop 1 = rest := rfl
      rw [hdrop, List.headD_cons] at h
      have hsub : ∀ p, p ∈ rest → ∀ d, d ∈ p → d ∈ l := by
        intro p hp d hd
        have : p ∈ splitNl l := hs ▸ List.mem_cons_of_mem l0 hp
        exact splitNl_chars this hd
      by_cases h1 : startsWithTicks l0 = true ∧ rest.getLastD l0 = fenceLineL
      · rw [if_pos h1] at h
        rcases joinNl_chars h with he | ⟨p, hp, hcp⟩
        · exact Or.inl he
        · exact Or.inr (hsub p (List.dropLast_subset _ hp) c hcp)
      · rw [if_neg h1] at h
        by_cases h2 : startsWithTicks l0 = true
        · rw [if_pos h2] at h
          rcases hf : rest.findIdx? (fun x => x = fenceLineL) with _ | j
          · rw [hf] at h
            exact Or.inr h
          · rw [hf] at h
            simp only [Option.elim] at h
            rcases joinNl_chars h with he | ⟨p, hp, hcp⟩
            · exact Or.inl he
            · exact Or.inr (hsub p (List.take_subset _ _ hp) c hcp)
        · rw [if_neg h2] at h
          exact Or.inr h
  · rw [if_neg hguard] at h
    exact Or.inr h

/-- If the fence guard fails, the fence-removal step is the identity. -/
theorem fenceStrip_of_not_fence {l : List Char}
    (h : hasEnclosingFence l = false) : fenceStrip l = l := by
  rw [fenceStrip]
  by_cases hguard : startsWithTicks l = true ∧ '\n' ∈ l
  · rw [if_pos hguard]
    rcases hs : splitNl l with _ | ⟨l0, rest⟩
    · exact absurd hs (splitNl_ne_nil l)
    · have hdrop : (l0 :: rest).drop 1 = rest := rfl
      rw [hdrop, List.headD_cons]
      have hrest : rest ≠ [] := by
        have h2 := splitNl_two_of_mem hguard.2
        rw [hs] at h2
        simp only [List.length_cons] at h2
        intro he
        rw [he] at h2
        simp at h2
      have hnofence : ∀ x ∈ rest, x ≠ fenceLineL := by
        intro x hx he
        rw [hasEnclosingFence, hs] at h
        simp only [Bool.and_eq_false_iff] at h
        rcases h with h | h
        · rcases h with h | h
          · rw [hguard.1] at h
            exact Bool.noConfusion h
          · have : l.contains '\n' = true := by
              simpa [List.contains] using hguard.2
            rw [this] at h
            exact Bool.noConfusion h
        · rw [hdrop] at h
          have : rest.any (fun x => decide (x = fenceLineL)) = true :=
            List.any_eq_true.mpr ⟨x, hx, by simp [he]⟩
          rw [this] at h
          exact Bool.noConfusion h
      have hlast : rest.getLastD l0 ≠ fenceLineL := by
        match rest, hrest with
        | r :: rs, _ => exact hnofence _ (getLastD_cons_mem l0 rs r)
      rw [if_neg (by intro hc; exact hlast hc.2)]
      have hfind : rest.findIdx? (fun x => x = fenceLineL) = none := by
        rw [List.findIdx?_eq_none_iff]
        intro x hx
        simp [hnofence x hx]
      by_cases ht : startsWithTicks l0 = true
      · rw [if_pos ht, hfind]
        rfl
      · rw [if_neg ht]
  · rw [if_neg hguard]

theorem data_mk (l : List Char) : (String.mk l).data = l := rfl

theorem mk_data (s : String) : String.mk s.data = s := rfl

/-- On text in which the scanner finds no marker and whose fence guard
fails, the normalizer is the identity. -/
theorem normalizeResp_of_clean {s : String}
    (hm : extractMarkers s = []) (hf : hasEnclosingFence s.data = false) :
    normalizeResp s = s := by
  have hm' : extractMarkersL s.data = [] := by
    rw [extractMarkers] at hm
    exact List.map_eq_nil_iff.mp hm
  have hstrip : stripMarkersL s.data = s.data := stripMarkersL_of_extract_nil hm'
  rw [normalizeResp, normalizeL, hstrip, fenceStrip_of_not_fence hf, mk_data]

theorem bracketsOkF_no_bracket : ∀ (fuel : Nat) (l : List Char),
    l.length ≤ fuel → bracketsOkF fuel l = true → '[' ∉ stripMarkersL l := by
  intro fuel
  induction fuel with
  | zero =>
    intro l hf _
    have : l = [] := List.length_eq_zero.mp (Nat.le_zero.mp hf)
    subst this
    rw [stripMarkersL_nil]
    exact List.not_mem_nil _
  | succ fuel ih =>
    intro l hf hok
    match l with
    | [] =>
      rw [stripMarkersL_nil]
      exact List.not_mem_nil _
    | c :: cs =>
      rw [bracketsOkF] at hok
      by_cases hc : c = '['
      · rw [if_pos hc] at hok
        match hm : matchMarker (c :: cs) with
        | some (cap, after) =>
          rw [hm] at hok
          have hlen := matchMarker_length hm
          simp only [List.length_cons] at hf hlen
          rw [stripMarkersL_cons_some hm]
          exact ih after (by omega) hok
        | none => rw [hm] at hok; exact Bool.noConfusion hok
      · rw [if_neg hc] at hok
        have hnone : matchMarker (c :: cs) = none := by
          match hm : matchMarker (c :: cs) with
          | none => rfl
          | some r => exact absurd (matchMarker_head hm) hc
        rw [stripMarkersL_cons_none hnone]
        simp only [List.length_cons] at hf
        intro hmem
        cases List.mem_cons.mp hmem with
        | inl he => exact hc he.symm
        | inr hmm => exact ih cs (by omega) hok hmm

/-- If every bracket of the answer opens a complete marker, the
normalized answer contains no marker at all. -/
theorem extractMarkers_normalizeResp_of_bracketsOk {s : String}
    (h : bracketsOk s = true) : extractMarkers (normalizeResp s) = [] := by
  have h1 : '[' ∉ stripMarkersL s.data :=
    bracketsOkF_no_bracket s.data.length s.data le_rfl h
  have h2 : '[' ∉ normalizeL s.data := by
    intro hmem
    rcases fenceStrip_chars hmem with he | hm
    · exact absurd he (by decide)
    · exact h1 hm
  rw [extractMarkers, normalizeResp, data_mk]
  rw [extractMarkersL_of_no_bracket h2]
  rfl

theorem loopGo_spec (oracle : Nat → String) (fs : FS) :
    ∀ (fuel r : Nat) (content : String) (fups : List String),
      r ≤ (loopGo oracle fs fuel r content fups).1 ∧
      (loopGo oracle fs fuel r content fups).1 ≤ r + fuel ∧
      (loopGo oracle fs fuel r content fups).1 + fups.length
        = r + (loopGo oracle fs fuel r content fups).2.1.length ∧
      ∃ t, (loopGo oracle fs fuel r content fups).2.1 = fups ++ t := by
  intro fuel
  induction fuel with
  | zero =>
    intro r content fups
    refine ⟨le_rfl, by simp [loopGo], by simp [loopGo], ⟨[], by simp [loopGo]⟩⟩
  | succ fuel ih =>
    intro r content fups
    by_cases hreq : extractMarkers content = []
    · rw [loopGo, if_pos hreq]
      exact ⟨le_rfl, by omega, rfl, ⟨[], by simp⟩⟩
    · rw [loopGo, if_neg hreq]
      obtain ⟨h1, h2, h3, t, ht⟩ :=
        ih (r + 1) (trimS (oracle r)) (fups ++ [mkFollowUp (roundContext fs content)])
      refine ⟨by omega, by omega, ?_, ?_⟩
      · rw [List.length_append] at h3
        simp only [List.length_singleton] at h3
        omega
      · exact ⟨mkFollowUp (roundContext fs content) :: t, by rw [ht, List.append_assoc]; rfl⟩

/-- The head of the follow-up list is stable under further iterations. -/
theorem loopGo_followUps_head (oracle : Nat → String) (fs : FS)
    (fuel r : Nat) (content : String) (f0 : String) (fups : List String) :
    ((loopGo oracle fs fuel r content (f0 :: fups)).2.1).head? = some f0 := by
  obtain ⟨_, _, _, t, ht⟩ := loopGo_spec oracle fs fuel r content (f0 :: fups)
  rw [ht]
  rfl

/-- If the loop starts with at least one remaining iteration and the
current answer contains a marker, at least one more request is made. -/
theorem loopGo_proceeds (oracle : Nat → String) (fs : FS)
    (fuel r : Nat) (content : String) (fups : List String)
    (hreq : extractMarkers content ≠ []) :
    r + 1 ≤ (loopGo oracle fs (fuel + 1) r content fups).1 := by
  rw [loopGo, if_neg hreq]
  exact (loopGo_spec oracle fs fuel (r + 1) (trimS (oracle r))
    (fups ++ [mkFollowUp (roundContext fs content)])).1

theorem cmpNatList_cons_lt {a b : Nat} {as bs : List Nat} :
    cmpNatList (a :: as) (b :: bs) = Ordering.lt
      ↔ a < b ∨ (a = b ∧ cmpNatList as bs = Ordering.lt) := by
  by_cases h1 : a < b
  · simp [cmpNatList, h1]
  · by_cases h2 : b < a
    · have hne : a ≠ b := by omega
      simp [cmpNatList, h1, h2, hne]
    · have heq : a = b := by omega
      simp [cmpNatList, h1, h2, heq]

theorem cmpNatList_eq_iff : ∀ {a b : List Nat}, cmpNatList a b = Ordering.eq ↔ a = b := by
  intro a
  induction a with
  | nil =>
    intro b
    cases b with
    | nil => simp [cmpNatList]
    | cons y ys => simp [cmpNatList]
  | cons x xs ih =>
    intro b
    cases b with
    | nil => simp [cmpNatList]
    | cons y ys =>
      by_cases h1 : x < y
      · have hne : ¬(x = y ∧ xs = ys) := by rintro ⟨he, _⟩; omega
        simp [cmpNatList, h1]
        omega
      · by_cases h2 : y < x
        · simp [cmpNatList, h1, h2]
          omega
        · have heq : x = y := by omega
          simp [cmpNatList, h1, h2, heq, ih]

theorem cmpNatList_swap : ∀ (a b : List Nat), cmpNatList b a = (cmpNatList a b).swap := by
  intro a
  induction a with
  | nil =>
    intro b
    cases b with
    | nil => rfl
    | cons y ys => rfl
  | cons x xs ih =>
    intro b
    cases b with
    | nil => rfl
    | cons y ys =>
      by_cases h1 : x < y
      · have h2 : ¬(y < x) := by omega
        simp [cmpNatList, h1, h2, Ordering.swap]
      · by_cases h2 : y < x
        · simp [cmpNatList, h1, h2, Ordering.swap]
        · simp [cmpNatList, h1, h2, ih ys]

theorem cmpNatList_lt_trans : ∀ {a b c : List Nat},
    cmpNatList a b = Ordering.lt → cmpNatList b c = Ordering.lt →
    cmpNatList a c = Ordering.lt := by
  intro a
  induction a with
  | nil =>
    intro b c hab hbc
    match b with
    | [] => exact absurd hab (by simp [cmpNatList])
    | y :: ys =>
      match c with
      | [] => exact absurd hbc (by simp [cmpNatList])
      | z :: zs => simp [cmpNatList]
  | cons x xs ih =>
    intro b c hab hbc
    match b with
    | [] => exact absurd hab (by simp [cmpNatList])
    | y :: ys =>
      match c with
      | [] => exact absurd hbc (by simp [cmpNatList])
      | z :: zs =>
        rcases cmpNatList_cons_lt.mp hab with hxy | ⟨hxy, hxys⟩
        · rcases cmpNatList_cons_lt.mp hbc with hyz | ⟨hyz, _⟩
          · exact cmpNatList_cons_lt.mpr (Or.inl (by omega))
          · exact cmpNatList_cons_lt.mpr (Or.inl (by omega))
        · rcases cmpNatList_cons_lt.mp hbc with hyz | ⟨hyz, hyzs⟩
          · exact cmpNatList_cons_lt.mpr (Or.inl (by omega))
          · exact cmpNatList_cons_lt.mpr (Or.inr ⟨by omega, ih hxys hyzs⟩)

theorem lt_of_ordToCmp_le {o : Ordering} (h : ordToCmp o ≤ 0) (hne : o ≠ Ordering.eq) :
    o = Ordering.lt := by
  rcases o with _ | _ | _
  · rfl
  · exact absurd rfl hne
  · simp [ordToCmp] at h

theorem localeCompareM_le_total (a b : String) :
    localeCompareM a b ≤ 0 ∨ localeCompareM b a ≤ 0 := by
  rw [localeCompareM, localeCompareM]
  rw [cmpNatList_swap (a.data.map primKey) (b.data.map primKey)]
  rw [cmpNatList_swap (a.data.map caseKey) (b.data.map caseKey)]
  rcases hp : cmpNatList (a.data.map primKey) (b.data.map primKey) with _ | _ | _
  · left
    rw [if_neg (by simp)]
    simp [ordToCmp]
  · rw [if_pos rfl, if_pos (by simp [Ordering.swap])]
    rcases hc : cmpNatList (a.data.map caseKey) (b.data.map caseKey) with _ | _ | _
    · left; simp [ordToCmp]
    · left; simp [ordToCmp]
    · right; simp [Ordering.swap, ordToCmp]
  · right
    rw [if_neg (by simp [Ordering.swap])]
    simp [Ordering.swap, ordToCmp]

theorem localeCompareM_le_trans {a b c : String}
    (hab : localeCompareM a b ≤ 0) (hbc : localeCompareM b c ≤ 0) :
    localeCompareM a c ≤ 0 := by
  rw [localeCompareM] at hab hbc ⊢
  by_cases hpab : cmpNatList (a.data.map primKey) (b.data.map primKey) = Ordering.eq
  · have hpeq := cmpNatList_eq_iff.mp hpab
    rw [if_pos hpab] at hab
    by_cases hpbc : cmpNatList (b.data.map primKey) (c.data.map primKey) = Ordering.eq
    · rw [if_pos hpbc] at hbc
      rw [if_pos (by rw [hpeq]; exact hpbc)]
      by_cases hcab : cmpNatList (a.data.map caseKey) (b.data.map caseKey) = Ordering.eq
      · rw [cmpNatList_eq_iff.mp hcab]
        exact hbc
      · have hlt := lt_of_ordToCmp_le hab hcab
        by_cases hcbc : cmpNatList (b.data.map caseKey) (c.data.map caseKey) = Ordering.eq
        · rw [← cmpNatList_eq_iff.mp hcbc, hlt]
          simp [ordToCmp]
        · have hlt2 := lt_of_ordToCmp_le hbc hcbc
          rw [cmpNatList_lt_trans hlt hlt2]
          simp [ordToCmp]
    · rw [if_neg hpbc] at hbc
      have hlt := lt_of_ordToCmp_le hbc hpbc
      have hpac : cmpNatList (a.data.map primKey) (c.data.map primKey) = Ordering.lt := by
        rw [hpeq]; exact hlt
      rw [if_neg (by simp [hpac]), hpac]
      simp [ordToCmp]
  · rw [if_neg hpab] at hab
    have hlt := lt_of_ordToCmp_le hab hpab
    by_cases hpbc : cmpNatList (b.data.map primKey) (c.data.map primKey) = Ordering.eq
    · have hpac : cmpNatList (a.data.map primKey) (c.data.map primKey) = Ordering.lt := by
        rw [← cmpNatList_eq_iff.mp hpbc]
        exact hlt
      rw [if_neg (by simp [hpac]), hpac]
      simp [ordToCmp]
    · rw [if_neg hpbc] at hbc
      have hlt2 := lt_of_ordToCmp_le hbc hpbc
      have hpac := cmpNatList_lt_trans hlt hlt2
      rw [if_neg (by simp [hpac]), hpac]
      simp [ordToCmp]

theorem entryCmp_file_file (na nb : String) :
    entryCmp (Entry.file na) (Entry.file nb) = localeCompareM na nb := rfl

theorem entryCmp_dir_dir (na nb : String) (ca cb : List Entry) :
    entryCmp (Entry.dir na ca) (Entry.dir nb cb) = localeCompareM na nb := rfl

theorem entryCmp_dir_file (na nb : String) (ca : List Entry) :
    entryCmp (Entry.dir na ca) (Entry.file nb) = -1 := rfl

theorem entryCmp_file_dir (na nb : String) (cb : List Entry) :
    entryCmp (Entry.file na) (Entry.dir nb cb) = 1 := rfl

instance : IsTotal Entry entryLe := by
  constructor
  intro a b
  cases a with
  | file na =>
    cases b with
    | file nb =>
      rw [entryLe, entryLe, entryCmp_file_file, entryCmp_file_file]
      exact localeCompareM_le_total na nb
    | dir nb cb =>
      right
      rw [entryLe, entryCmp_dir_file]
      omega
  | dir na ca =>
    cases b with
    | file nb =>
      left
      rw [entryLe, entryCmp_dir_file]
      omega
    | dir nb cb =>
      rw [entryLe, entryLe, entryCmp_dir_dir, entryCmp_dir_dir]
      exact localeCompareM_le_total na nb

instance : IsTrans Entry entryLe := by
  constructor
  intro a b c hab hbc
  cases a with
  | file na =>
    cases b with
    | file nb =>
      cases c with
      | file nc =>
        rw [entryLe, entryCmp_file_file] at hab hbc ⊢
        exact localeCompareM_le_trans hab hbc
      | dir nc cc =>
        rw [entryLe, entryCmp_file_dir] at hbc
        omega
    | dir nb cb =>
      rw [entryLe, entryCmp_file_dir] at hab
      omega
  | dir na ca =>
    cases c with
    | file nc =>
      rw [entryLe, entryCmp_dir_file]
      omega
    | dir nc cc =>
      cases b with
      | file nb =>
        rw [entryLe, entryCmp_file_dir] at hbc
        omega
      | dir nb cb =>
        rw [entryLe, entryCmp_dir_dir] at hab hbc ⊢
        exact localeCompareM_le_trans hab hbc

/-- The items listed for a directory are sorted by the code's comparator. -/
theorem levelItems_sorted (changed cdirs : List (List String)) (rel : List String)
    (depth : Nat) (children : List Entry) :
    List.Sorted entryLe (levelItems changed cdirs rel depth children) :=
  List.sorted_insertionSort entryLe _

theorem take_dropLast {α : Type} (l : List α) (k : Nat) (hk : k ≤ l.length - 1) :
    l.dropLast.take k = l.take k := by
  rw [List.dropLast_eq_take, List.take_take]
  congr 1
  omega

theorem mem_parentsGo : ∀ (fuel : Nat) (p d : List String), p.length ≤ fuel →
    (d ∈ parentsGo fuel p ↔ d ≠ [] ∧ d.length ≤ p.length ∧ d = p.take d.length) := by
  intro fuel
  induction fuel with
  | zero =>
    intro p d hf
    have : p = [] := List.length_eq_zero.mp (Nat.le_zero.mp hf)
    subst this
    rw [parentsGo]
    constructor
    · intro h; exact absurd h (List.not_mem_nil _)
    · rintro ⟨hne, hlen, _⟩
      exact absurd (List.length_eq_zero.mp (Nat.le_zero.mp hlen)) hne
  | succ fuel ih =>
    intro p d hf
    rw [parentsGo]
    by_cases hp : p = []
    · rw [if_pos hp]
      subst hp
      constructor
      · intro h; exact absurd h (List.not_mem_nil _)
      · rintro ⟨hne, hlen, _⟩
        exact absurd (List.length_eq_zero.mp (Nat.le_zero.mp hlen)) hne
    · rw [if_neg hp]
      have hplen : 1 ≤ p.length := List.length_pos.mpr hp
      have hdl : p.dropLast.length = p.length - 1 := List.length_dropLast p
      constructor
      · intro hmem
        cases List.mem_cons.mp hmem with
        | inl he =>
          rw [he]
          exact ⟨hp, le_rfl, (List.take_length p).symm⟩
        | inr hm =>
          obtain ⟨hne, hlen, heq⟩ := (ih p.dropLast d (by omega)).mp hm
          rw [hdl] at hlen
          rw [take_dropLast p d.length (by omega)] at heq
          exact ⟨hne, by omega, heq⟩
      · rintro ⟨hne, hlen, heq⟩
        by_cases hd : d.length = p.length
        · rw [hd, List.take_length] at heq
          rw [heq]
          exact List.mem_cons_self _ _
        · apply List.mem_cons_of_mem
          refine (ih p.dropLast d (by omega)).mpr ⟨hne, by omega, ?_⟩
          rw [take_dropLast p d.length (by omega)]
          exact heq

/-- Membership in the accumulated changed-directory set is exactly: being
a nonempty strict segment-prefix of some changed file path.  (The root
`'.'`, modelled `[]`, is also a member whenever there are changed
files.) -/
theorem mem_changedDirs {files : List (List String)} {d : List String} (hd : d ≠ []) :
    d ∈ changedDirs files ↔ ∃ f ∈ files, d.length < f.length ∧ d = f.take d.length := by
  rw [changedDirs, List.mem_flatten]
  constructor
  · rintro ⟨l, hl, hdl⟩
    obtain ⟨f, hf, rfl⟩ := List.mem_map.mp hl
    rcases List.mem_append.mp hdl with hpar | hroot
    · rw [parentsOf] at hpar
      obtain ⟨_, hlen, heq⟩ := (mem_parentsGo f.length f.dropLast d
        (by rw [List.length_dropLast]; omega)).mp hpar
      rw [List.length_dropLast] at hlen
      have hdlen : 1 ≤ d.length := List.length_pos.mpr hd
      rw [take_dropLast f d.length (by omega)] at heq
      exact ⟨f, hf, by omega, heq⟩
    · simp only [List.mem_singleton] at hroot
      exact absurd hroot hd
  · rintro ⟨f, hf, hlen, heq⟩
    refine ⟨parentsOf f ++ [[]], List.mem_map.mpr ⟨f, hf, rfl⟩, ?_⟩
    apply List.mem_append_left
    rw [parentsOf]
    refine (mem_parentsGo f.length f.dropLast d
      (by rw [List.length_dropLast]; omega)).mpr ⟨hd, ?_, ?_⟩
    · rw [List.length_dropLast]; omega
    · rw [take_dropLast f d.length (by omega)]
      exact heq

/-- Whenever recursion exceeds the maximum depth, the whole subtree is
rendered as the single placeholder line. -/
theorem formatTreeF_collapse (hl : String → String) (changed cdirs : List (List String))
    (fuel : Nat) (children : List Entry) (rel : List String) (pfx : String)
    (depth maxDepth : Nat) (h : depth > maxDepth) :
    formatTreeF hl changed cdirs fuel children rel pfx depth maxDepth
      = pfx ++ "... (more items not shown)\n" := by
  cases fuel with
  | zero => rfl
  | succ fuel => rw [formatTreeF, if_pos h]

theorem truncE_name (k : Nat) (e : Entry) : (truncE k e).name = e.name := by
  cases e with
  | file n => cases k <;> rfl
  | dir n cs => cases k <;> rfl

theorem truncE_isDir (k : Nat) (e : Entry) : (truncE k e).isDir = e.isDir := by
  cases e with
  | file n => cases k <;> rfl
  | dir n cs => cases k <;> rfl

theorem keepEntry_truncE (changed cdirs : List (List String)) (rel : List String)
    (depth k : Nat) (e : Entry) :
    keepEntry changed cdirs rel depth (truncE k e) = keepEntry changed cdirs rel depth e := by
  rw [keepEntry, keepEntry, truncE_name, truncE_isDir]

theorem entryCmp_truncE (k k' : Nat) (a b : Entry) :
    entryCmp (truncE k a) (truncE k' b) = entryCmp a b := by
  rw [entryCmp, entryCmp, truncE_name, truncE_name, truncE_isDir, truncE_isDir]

theorem orderedInsert_truncE (k : Nat) (a : Entry) :
    ∀ (l : List Entry),
      List.orderedInsert entryLe (truncE k a) (l.map (truncE k))
        = (List.orderedInsert entryLe a l).map (truncE k) := by
  intro l
  induction l with
  | nil => rfl
  | cons b bs ih =>
    rw [List.map_cons, List.orderedInsert, List.orderedInsert]
    by_cases hle : entryLe a b
    · have hle' : entryLe (truncE k a) (truncE k b) := by
        rw [entryLe, entryCmp_truncE]
        exact hle
      rw [if_pos hle', if_pos hle]
      rfl
    · have hle' : ¬entryLe (truncE k a) (truncE k b) := by
        rw [entryLe, entryCmp_truncE]
        exact hle
      rw [if_neg hle', if_neg hle, List.map_cons, ih]

theorem sortEntries_truncE (k : Nat) : ∀ (l : List Entry),
    sortEntries (l.map (truncE k)) = (sortEntries l).map (truncE k) := by
  intro l
  induction l with
  | nil => rfl
  | cons a as ih =>
    rw [List.map_cons, sortEntries, List.insertionSort]
    rw [sortEntries] at ih
    rw [ih]
    rw [orderedInsert_truncE]
    rfl

theorem levelItems_truncE (changed cdirs : List (List String)) (rel : List String)
    (depth k : Nat) (children : List Entry) :
    levelItems changed cdirs rel depth (children.map (truncE k))
      = (levelItems changed cdirs rel depth children).map (truncE k) := by
  rw [levelItems, levelItems, List.filter_map]
  rw [List.filter_congr (l := children)
    (fun e _ => by
      simp only [Function.comp_apply]
      exact keepEntry_truncE changed cdirs rel depth k e)]
  exact sortEntries_truncE k _

theorem enumFromN_map (k : Nat) : ∀ (i : Nat) (l : List Entry),
    enumFromN i (l.map (truncE k))
      = (enumFromN i l).map (fun p => (p.1, truncE k p.2)) := by
  intro i l
  induction l generalizing i with
  | nil => rfl
  | cons e es ih => rw [List.map_cons, enumFromN, enumFromN, ih, List.map_cons]

/-- The rendering only depends on the tree up to the depth bound: cutting
every subtree below the remaining `maxDepth - depth` levels leaves the
output unchanged. -/
theorem formatTreeF_truncE (hl : String → String) (changed cdirs : List (List String)) :
    ∀ (fuel : Nat) (children : List Entry) (rel : List String) (pfx : String) (depth : Nat),
      depth ≤ 3 →
      formatTreeF hl changed cdirs fuel (children.map (truncE (3 - depth))) rel pfx depth 3
        = formatTreeF hl changed cdirs fuel children rel pfx depth 3 := by
  intro fuel
  induction fuel with
  | zero => intros; rfl
  | succ fuel ih =>
    intro children rel pfx depth hdep
    rw [formatTreeF, formatTreeF]
    rw [if_neg (by omega), if_neg (by omega)]
    rw [levelItems_truncE, enumFromN_map, List.map_map]
    congr 1
    apply List.map_congr_left
    intro ie _
    simp only [Function.comp_apply]
    rw [List.length_map]
    rcases ie with ⟨i, e⟩
    cases e with
    | file n =>
      cases hk : 3 - depth with
      | zero => rfl
      | succ k => rfl
    | dir n cs =>
      by_cases hdeq : depth = 3
      · have hk : 3 - depth = 0 := by omega
        rw [hk]
        simp only [truncE]
        rw [formatTreeF_collapse hl changed cdirs fuel [] (rel ++ [n]) _ (depth + 1) 3
          (by omega)]
        rw [formatTreeF_collapse hl changed cdirs fuel cs (rel ++ [n]) _ (depth + 1) 3
          (by omega)]
      · have hk : 3 - depth = (3 - (depth + 1)) + 1 := by omega
        rw [hk]
        simp only [truncE]
        rw [ih cs (rel ++ [n]) _ (depth + 1) (by omega)]

/-! ### The claims -/

/-- C1: For every run of the completion loop (`sendPromptToOpenAI`), at
most 3 completion requests are issued in total, no matter how many
`[NEED_CONTEXT:...]` markers appear in any answer, including the final
permitted round's answer; the round counter starts at 1, increases by
exactly 1 per additional request, and never exceeds the fixed maximum
of 3.  (Requests total `1 + followUps.length`, one per follow-up prompt
beyond the initial request, and this equals the final round counter.) -/
theorem c1_request_bound (oracle : Nat → String) (fs : FS) (p : String) :
    1 ≤ (sendPromptToOpenAI oracle fs p).rounds ∧
    (sendPromptToOpenAI oracle fs p).rounds ≤ maxRounds ∧
    (sendPromptToOpenAI oracle fs p).rounds
      = 1 + (sendPromptToOpenAI oracle fs p).followUps.length := by
  obtain ⟨h1, h2, h3, _⟩ := loopGo_spec oracle fs (maxRounds - 1) 1 (trimS (oracle 0)) []
  refine ⟨h1, ?_, ?_⟩
  · calc (sendPromptToOpenAI oracle fs p).rounds
        ≤ 1 + (maxRounds - 1) := h2
      _ = maxRounds := by rw [maxRounds]
  · simp only [List.length_nil, Nat.add_zero] at h3
    exact h3

/-- C2 (corrected), counterexample: the normalizer is not idempotent;
removing a marker can splice the surrounding text into a new marker,
which only a second pass removes. -/
theorem c2_counterexample :
    normalizeResp (normalizeResp "[NEED[NEED_CONTEXT:x]_CONTEXT:y]")
      ≠ normalizeResp "[NEED[NEED_CONTEXT:x]_CONTEXT:y]" := by decide

/-- C2 (amended): the normalizer is idempotent on every input whose
normalized form contains no context-request marker and does not carry an
enclosing fence; in general a second application can strip further
(marker removal can splice a new marker, and fence removal can expose a
second enclosing fence). -/
theorem c2_idempotent_on_clean (s : String)
    (hm : extractMarkers (normalizeResp s) = [])
    (hf : hasEnclosingFence (normalizeResp s).data = false) :
    normalizeResp (normalizeResp s) = normalizeResp s :=
  normalizeResp_of_clean hm hf

theorem c2_witness :
    extractMarkers (normalizeResp "hello") = [] ∧
    hasEnclosingFence (normalizeResp "hello").data = false ∧
    normalizeResp (normalizeResp "hello") = normalizeResp "hello" :=
  ⟨by decide, by decide, c2_idempotent_on_clean "hello" (by decide) (by decide)⟩

/-- C3 (corrected), counterexample: an input with no enclosing fence is
not always returned unchanged — the normalizer also strips context
markers. -/
theorem c3_counterexample :
    hasEnclosingFence ("see [NEED_CONTEXT:a.txt] now" : String).data = false ∧
    normalizeResp "see [NEED_CONTEXT:a.txt] now" ≠ "see [NEED_CONTEXT:a.txt] now" := by
  constructor
  · decide
  · decide

/-- C3 (amended): for every input string that contains no
context-request marker and no enclosing code fence wrapping the entire
body, the response normalizer is the identity and returns the text
unchanged. -/
theorem c3_identity_on_clean (s : String)
    (hm : extractMarkers s = [])
    (hf : hasEnclosingFence s.data = false) :
    normalizeResp s = s :=
  normalizeResp_of_clean hm hf

theorem c3_witness :
    extractMarkers "hello world" = [] ∧
    hasEnclosingFence ("hello world" : String).data = false ∧
    normalizeResp "hello world" = "hello world" :=
  ⟨by decide, by decide, c3_identity_on_clean "hello world" (by decide) (by decide)⟩

/-- C4: within a single round every match of the marker pattern is
resolved independently, duplicates included: for the answer
`"Use this:\n[NEED_CONTEXT:a.txt]\n[NEED_CONTEXT:a.txt]"` with `a.txt`
readable and containing `"hello"`, the round context holds two resolved
blocks both showing `"hello"`, and the round-2 follow-up prompt (the
first follow-up of the run) is built from exactly those two blocks. -/
theorem c4_duplicates_resolved (oracle : Nat → String) (fs : FS) (p : String)
    (ho : oracle 0 = "Use this:\n[NEED_CONTEXT:a.txt]\n[NEED_CONTEXT:a.txt]")
    (hfs : fs "a.txt" = FileResult.content "hello") :
    roundContext fs (trimS (oracle 0))
      = ["File content for a.txt:\n```\nhello\n```",
         "File content for a.txt:\n```\nhello\n```"] ∧
    (sendPromptToOpenAI oracle fs p).followUps.head?
      = some (mkFollowUp ["File content for a.txt:\n```\nhello\n```",
          "File content for a.txt:\n```\nhello\n```"]) := by
  have htrim : trimS "Use this:\n[NEED_CONTEXT:a.txt]\n[NEED_CONTEXT:a.txt]"
      = "Use this:\n[NEED_CONTEXT:a.txt]\n[NEED_CONTEXT:a.txt]" := by decide
  have hext : extractMarkers "Use this:\n[NEED_CONTEXT:a.txt]\n[NEED_CONTEXT:a.txt]"
      = ["a.txt", "a.txt"] := by decide
  have htr2 : trimS "a.txt" = "a.txt" := by decide
  have hres : resolveCapture fs "a.txt" = "File content for a.txt:\n```\nhello\n```" := by
    rw [resolveCapture, htr2, readFileContent, hfs]
    rfl
  have hround : roundContext fs (trimS (oracle 0))
      = ["File content for a.txt:\n```\nhello\n```",
         "File content for a.txt:\n```\nhello\n```"] := by
    rw [ho, htrim, roundContext, hext]
    rw [List.map_cons, List.map_cons, List.map_nil, hres]
  refine ⟨hround, ?_⟩
  have hrun : (sendPromptToOpenAI oracle fs p).followUps
      = (loopGo oracle fs 2 1 (trimS (oracle 0)) []).2.1 := rfl
  rw [hrun]
  have hne : extractMarkers (trimS (oracle 0)) ≠ [] := by
    rw [ho, htrim, hext]
    simp
  rw [show (2 : Nat) = 1 + 1 from rfl, loopGo, if_neg hne]
  rw [hround]
  rw [List.nil_append]
  exact loopGo_followUps_head oracle fs 1 2 (trimS (oracle 1)) _ []

theorem c4_witness :
    roundContext
        (fun q => if q = "a.txt" then FileResult.content "hello" else FileResult.missing)
        (trimS ((fun n => if n = 0 then
            "Use this:\n[NEED_CONTEXT:a.txt]\n[NEED_CONTEXT:a.txt]" else "done") 0))
      = ["File content for a.txt:\n```\nhello\n```",
         "File content for a.txt:\n```\nhello\n```"] ∧
    (sendPromptToOpenAI
        (fun n => if n = 0 then
            "Use this:\n[NEED_CONTEXT:a.txt]\n[NEED_CONTEXT:a.txt]" else "done")
        (fun q => if q = "a.txt" then FileResult.content "hello" else FileResult.missing)
        "prompt").followUps.head?
      = some (mkFollowUp ["File content for a.txt:\n```\nhello\n```",
          "File content for a.txt:\n```\nhello\n```"]) :=
  c4_duplicates_resolved
    (fun n => if n = 0 then
        "Use this:\n[NEED_CONTEXT:a.txt]\n[NEED_CONTEXT:a.txt]" else "done")
    (fun q => if q = "a.txt" then FileResult.content "hello" else FileResult.missing)
    "prompt" rfl rfl

/-- C5: a context path that does not exist (or cannot be read) resolves
to an error string that names that exact path; the loop folds it into
the follow-up prompt and proceeds to the next round instead of failing
(the resolution is total — no error escapes `resolveCapture`). -/
theorem c5_unreadable_recovered (oracle : Nat → String) (fs : FS) (p : String)
    (ho : oracle 0 = "[NEED_CONTEXT:missing.txt]")
    (hfs : fs "missing.txt" = FileResult.missing) :
    (∀ (fs' : FS) (q : String), trimS q = q → fs' q = FileResult.missing →
      resolveCapture fs' q = "Error reading " ++ q ++ ": " ++ ("File not found: " ++ q)) ∧
    (∀ (fs' : FS) (q m : String), trimS q = q → fs' q = FileResult.unreadable m →
      resolveCapture fs' q = "Error reading " ++ q ++ ": " ++ m) ∧
    (sendPromptToOpenAI oracle fs p).followUps.head?
      = some (mkFollowUp ["Error reading missing.txt: File not found: missing.txt"]) ∧
    2 ≤ (sendPromptToOpenAI oracle fs p).rounds := by
  have hmiss : ∀ (fs' : FS) (q : String), trimS q = q → fs' q = FileResult.missing →
      resolveCapture fs' q = "Error reading " ++ q ++ ": " ++ ("File not found: " ++ q) := by
    intro fs' q ht hq
    rw [resolveCapture, ht, readFileContent, hq]
  refine ⟨hmiss, ?_, ?_, ?_⟩
  · intro fs' q m ht hq
    rw [resolveCapture, ht, readFileContent, hq]
  · have htrim : trimS "[NEED_CONTEXT:missing.txt]" = "[NEED_CONTEXT:missing.txt]" := by
      decide
    have hext : extractMarkers "[NEED_CONTEXT:missing.txt]" = ["missing.txt"] := by decide
    have hround : roundContext fs (trimS (oracle 0))
        = ["Error reading missing.txt: File not found: missing.txt"] := by
      rw [ho, htrim, roundContext, hext, List.map_cons, List.map_nil]
      rw [hmiss fs "missing.txt" (by decide) hfs]
      rfl
    have hrun : (sendPromptToOpenAI oracle fs p).followUps
        = (loopGo oracle fs 2 1 (trimS (oracle 0)) []).2.1 := rfl
    rw [hrun]
    have hne : extractMarkers (trimS (oracle 0)) ≠ [] := by
      rw [ho, htrim, hext]
      simp
    rw [show (2 : Nat) = 1 + 1 from rfl, loopGo, if_neg hne]
    rw [hround, List.nil_append]
    exact loopGo_followUps_head oracle fs 1 2 (trimS (oracle 1)) _ []
  · have hne : extractMarkers (trimS (oracle 0)) ≠ [] := by
      rw [ho]
      decide
    have hrun : (sendPromptToOpenAI oracle fs p).rounds
        = (loopGo oracle fs 2 1 (trimS (oracle 0)) []).1 := rfl
    rw [hrun]
    exact loopGo_proceeds oracle fs 1 1 (trimS (oracle 0)) [] hne

theorem c5_witness :
    (∀ (fs' : FS) (q : String), trimS q = q → fs' q = FileResult.missing →
      resolveCapture fs' q = "Error reading " ++ q ++ ": " ++ ("File not found: " ++ q)) ∧
    (∀ (fs' : FS) (q m : String), trimS q = q → fs' q = FileResult.unreadable m →
      resolveCapture fs' q = "Error reading " ++ q ++ ": " ++ m) ∧
    (sendPromptToOpenAI (fun _ => "[NEED_CONTEXT:missing.txt]")
        (fun _ => FileResult.missing) "prompt").followUps.head?
      = some (mkFollowUp ["Error reading missing.txt: File not found: missing.txt"]) ∧
    2 ≤ (sendPromptToOpenAI (fun _ => "[NEED_CONTEXT:missing.txt]")
        (fun _ => FileResult.missing) "prompt").rounds :=
  c5_unreadable_recovered (fun _ => "[NEED_CONTEXT:missing.txt]")
    (fun _ => FileResult.missing) "prompt" rfl rfl

/-- C6 (corrected), counterexample: the defensive strip is applied, but
the returned FinalResponse can still contain a marker — deleting a
matched marker can splice the surrounding text into a new one.  With the
model answering `[NEED[NEED_CONTEXT:x]_CONTEXT:y]` every round, the loop
exhausts its budget and the returned text is `[NEED_CONTEXT:y]`. -/
theorem c6_counterexample :
    (sendPromptToOpenAI (fun _ => "[NEED[NEED_CONTEXT:x]_CONTEXT:y]")
        (fun _ => FileResult.missing) "prompt").final = "[NEED_CONTEXT:y]" ∧
    extractMarkers (sendPromptToOpenAI (fun _ => "[NEED[NEED_CONTEXT:x]_CONTEXT:y]")
        (fun _ => FileResult.missing) "prompt").final ≠ [] := by
  constructor
  · decide
  · decide

/-- C6 (amended): after loop exit the remaining markers are stripped
from the final answer unconditionally, and the returned FinalResponse is
guaranteed to contain no context-request marker whenever every `[` that
the scan encounters in the exit answer opens a complete marker; in
general a deletion can splice surrounding text into a new marker that
survives the single pass. -/
theorem c6_strip_on_exit (oracle : Nat → String) (fs : FS) (p : String)
    (h : bracketsOk (sendPromptToOpenAI oracle fs p).raw = true) :
    extractMarkers (sendPromptToOpenAI oracle fs p).final = [] := by
  have hfinal : (sendPromptToOpenAI oracle fs p).final
      = normalizeResp (sendPromptToOpenAI oracle fs p).raw := rfl
  rw [hfinal]
  exact extractMarkers_normalizeResp_of_bracketsOk h

theorem c6_witness :
    bracketsOk (sendPromptToOpenAI (fun _ => "done")
        (fun _ => FileResult.missing) "prompt").raw = true ∧
    extractMarkers (sendPromptToOpenAI (fun _ => "done")
        (fun _ => FileResult.missing) "prompt").final = [] :=
  ⟨by decide, c6_strip_on_exit (fun _ => "done") (fun _ => FileResult.missing) "prompt"
    (by decide)⟩

/-- C7: the tree renderer is bounded by the maximum recursion depth
(`maxDepth = 3`): whenever a call exceeds it, the remaining subtree is
rendered as the single `"... (more items not shown)"` placeholder line,
and the whole output only depends on the tree up to the depth bound
(cutting every subtree deeper than 3 directory levels below the root
listing leaves the output unchanged). -/
theorem c7_depth_bound :
    (∀ (hl : String → String) (changed cdirs : List (List String)) (fuel : Nat)
        (children : List Entry) (rel : List String) (pfx : String) (depth maxDepth : Nat),
      depth > maxDepth →
        formatTreeF hl changed cdirs fuel children rel pfx depth maxDepth
          = pfx ++ "... (more items not shown)\n") ∧
    (∀ (hl : String → String) (rootName : String) (children : List Entry)
        (changed : List (List String)),
      getDirectoryStructure hl rootName (children.map (truncE 3)) changed
        = getDirectoryStructure hl rootName children changed) := by
  constructor
  · intro hl changed cdirs fuel children rel pfx depth maxDepth h
    exact formatTreeF_collapse hl changed cdirs fuel children rel pfx depth maxDepth h
  · intro hl rootName children changed
    rw [getDirectoryStructure, getDirectoryStructure]
    rw [show (3 : Nat) = 3 - 0 from rfl]
    rw [formatTreeF_truncE hl changed (changedDirs changed) 5 children [] "" 0 (by omega)]

theorem c7_witness :
    formatTreeF (fun s => s) [] [] 2 [Entry.file "a"] ["x"] "  " 4 3
      = "  ... (more items not shown)\n" :=
  c7_depth_bound.1 (fun s => s) [] [] 2 [Entry.file "a"] ["x"] "  " 4 3 (by omega)

/-- C8 (corrected), counterexample: the tie-break among entries of the
same kind is `a.localeCompare(b)`, not case-sensitive code-point order:
files `Z.txt` and `a.txt` render as `a.txt` before `Z.txt`, although
`"Z.txt" < "a.txt"` in code-point order (so the claimed ordering would
render `Z.txt` first). -/
theorem c8_counterexample :
    formatTreeF (fun s => s) [] (changedDirs []) 5
        [Entry.file "Z.txt", Entry.file "a.txt"] [] "" 0 3
      = "├── a.txt\n└── Z.txt\n" ∧
    formatTreeF (fun s => s) [] (changedDirs []) 5
        [Entry.file "Z.txt", Entry.file "a.txt"] [] "" 0 3
      ≠ "├── Z.txt\n└── a.txt\n" ∧
    List.Lex (· < ·) ("Z.txt" : String).data ("a.txt" : String).data := by
  refine ⟨by decide, by decide, List.Lex.rel (by decide)⟩

/-- C8 (amended): within every directory listed by the tree summarizer,
subdirectories are ordered before files, and ties among entries of the
same kind are broken by the locale-aware comparison
`a.localeCompare(b)` under the host's default (ICU root) collation —
which sorts punctuation and symbols before digits, digits before
letters, and letters case-insensitively at the primary level (lowercase
before uppercase at the tertiary level) — not by case-sensitive
lexicographic comparison of names.  The listed items are pairwise
ordered by the code's comparator and a directory never appears after a
file; the closing conjuncts pin the modelled collation at
representative inputs: `a.txt` before `Z.txt`, `_app.tsx` before
`1setup.ts`, `~notes` before `a.txt`, and `a` before `A`. -/
theorem c8_ordering :
    (∀ (changed cdirs : List (List String)) (rel : List String)
        (depth : Nat) (children : List Entry),
      (levelItems changed cdirs rel depth children).Pairwise
        (fun a b => entryCmp a b ≤ 0 ∧ (b.isDir = true → a.isDir = true))) ∧
    localeCompareM "a.txt" "Z.txt" < 0 ∧
    localeCompareM "_app.tsx" "1setup.ts" < 0 ∧
    localeCompareM "~notes" "a.txt" < 0 ∧
    localeCompareM "a" "A" < 0 := by
  refine ⟨?_, by decide, by decide, by decide, by decide⟩
  intro changed cdirs rel depth children
  have hs := levelItems_sorted changed cdirs rel depth children
  refine hs.imp ?_
  intro a b hab
  refine ⟨hab, ?_⟩
  intro hb
  cases a with
  | file na =>
    cases b with
    | file nb => exact absurd hb (by simp [Entry.isDir])
    | dir nb cb =>
      rw [entryLe, entryCmp_file_dir] at hab
      omega
  | dir na ca => rfl

/-- C9: an entry is listed exactly when it is a changed file, a
directory that transitively contains a changed file (a nonempty strict
segment-prefix of some changed path), or any entry at depth 0 — and an
entry whose name begins with `.git` is always excluded regardless.  In
particular, for changed files `src/a.ts` and `src/b/c.ts` the
directories `src` and `src/b` are in the changed-directory set. -/
theorem c9_inclusion_rule :
    (∀ (changed : List (List String)) (rel : List String) (depth : Nat)
        (name : String) (cs : List Entry),
      keepEntry changed (changedDirs changed) rel depth (Entry.dir name cs) = true ↔
        (startsWithS name ".git" = false ∧
          ((∃ f ∈ changed, (rel ++ [name]).length < f.length
              ∧ rel ++ [name] = f.take (rel ++ [name]).length) ∨ depth = 0))) ∧
    (∀ (changed : List (List String)) (rel : List String) (depth : Nat) (name : String),
      keepEntry changed (changedDirs changed) rel depth (Entry.file name) = true ↔
        (startsWithS name ".git" = false ∧ (rel ++ [name] ∈ changed ∨ depth = 0))) ∧
    ["src"] ∈ changedDirs [["src", "a.ts"], ["src", "b", "c.ts"]] ∧
    ["src", "b"] ∈ changedDirs [["src", "a.ts"], ["src", "b", "c.ts"]] := by
  refine ⟨?_, ?_, by decide, by decide⟩
  · intro changed rel depth name cs
    rw [keepEntry]
    simp only [Entry.name, Entry.isDir]
    cases hg : startsWithS name ".git" with
    | true => simp
    | false =>
      have hne : rel ++ [name] ≠ [] := by simp
      simp only [Bool.false_eq_true, if_false, if_true]
      rw [Bool.or_eq_true, decide_eq_true_eq, decide_eq_true_eq, mem_changedDirs hne]
      simp

  · intro changed rel depth name
    rw [keepEntry]
    simp only [Entry.name, Entry.isDir]
    cases hg : startsWithS name ".git" with
    | true => simp
    | false =>
      simp only [Bool.false_eq_true, if_false]
      rw [Bool.or_eq_true, decide_eq_true_eq, decide_eq_true_eq]
      simp

/-- C10: the captured path of a context-request marker is trimmed of
leading and trailing whitespace before file resolution, so
`[NEED_CONTEXT: p ]` resolves exactly the same file as
`[NEED_CONTEXT:p]` (for a nonempty already-trimmed path `p` containing
no `]`). -/
theorem c10_capture_trimmed (fs : FS) (p : String)
    (hp : p ≠ "") (hb : ']' ∉ p.data) (ht : trimS p = p) :
    roundContext fs ("[NEED_CONTEXT: " ++ p ++ " ]")
      = roundContext fs ("[NEED_CONTEXT:" ++ p ++ "]") ∧
    roundContext fs ("[NEED_CONTEXT:" ++ p ++ "]") = [resolveCapture fs p] := by
  have hpd : p.data ≠ [] := by
    intro h
    apply hp
    calc p = String.mk p.data := (mk_data p).symm
      _ = String.mk [] := by rw [h]
      _ = "" := rfl
  have htL : trimL p.data = p.data := congrArg String.data ht
  have hdata1 : ("[NEED_CONTEXT:" ++ p ++ "]").data = markerHeadL ++ (p.data ++ ']' :: []) := by
    have h1 : ("[NEED_CONTEXT:" ++ p ++ "]").data
        = ("[NEED_CONTEXT:" : String).data ++ p.data ++ ("]" : String).data := by
      rw [String.data_append, String.data_append]
    rw [h1]
    have h2 : ("[NEED_CONTEXT:" : String).data = markerHeadL := by decide
    have h3 : ("]" : String).data = [']'] := by decide
    rw [h2, h3, List.append_assoc]
  have hbare : roundContext fs ("[NEED_CONTEXT:" ++ p ++ "]") = [resolveCapture fs p] := by
    rw [roundContext, extractMarkers, hdata1, extractMarkersL_marker [] hpd hb,
      extractMarkersL_nil, List.map_cons, List.map_nil, List.map_cons, List.map_nil,
      mk_data]
  refine ⟨?_, hbare⟩
  rw [hbare]
  have hdata2 : ("[NEED_CONTEXT: " ++ p ++ " ]").data
      = markerHeadL ++ ((' ' :: (p.data ++ [' '])) ++ ']' :: []) := by
    have h1 : ("[NEED_CONTEXT: " ++ p ++ " ]").data
        = ("[NEED_CONTEXT: " : String).data ++ p.data ++ (" ]" : String).data := by
      rw [String.data_append, String.data_append]
    rw [h1]
    have h2 : ("[NEED_CONTEXT: " : String).data = markerHeadL ++ [' '] := by decide
    have h3 : (" ]" : String).data = [' ', ']'] := by decide
    rw [h2, h3]
    simp
  have hsne : (' ' :: (p.data ++ [' '])) ≠ [] := by simp
  have hsb : ']' ∉ (' ' :: (p.data ++ [' '])) := by
    intro h
    rcases List.mem_cons.mp h with h | h
    · exact absurd h.symm (by decide)
    · rcases List.mem_append.mp h with h | h
      · exact hb h
      · simp only [List.mem_singleton] at h
        exact absurd h.symm (by decide)
  have htrimS : trimS (String.mk (' ' :: (p.data ++ [' ']))) = p := by
    rw [trimS, data_mk, trimL_pad hpd htL, mk_data]
  rw [roundContext, extractMarkers, hdata2, extractMarkersL_marker [] hsne hsb,
    extractMarkersL_nil, List.map_cons, List.map_nil, List.map_cons, List.map_nil]
  rw [resolveCapture, resolveCapture, htrimS, ht]

theorem c10_witness :
    roundContext (fun _ => FileResult.missing) ("[NEED_CONTEXT: " ++ "a.txt" ++ " ]")
      = roundContext (fun _ => FileResult.missing) ("[NEED_CONTEXT:" ++ "a.txt" ++ "]") ∧
    roundContext (fun _ => FileResult.missing) ("[NEED_CONTEXT:" ++ "a.txt" ++ "]")
      = [resolveCapture (fun _ => FileResult.missing) "a.txt"] :=
  c10_capture_trimmed (fun _ => FileResult.missing) "a.txt" (by decide) (by decide)
    (by decide)

end Llmpr

